import Mathlib

/-!
Verification of the extractive email summarizer
(app/services/summarizer.py, class Summarizer).

Strings are modelled as List Char.  Python float scores are modelled as
exact rationals; the regular expressions of the source are modelled by
explicit character scanners that follow the semantics of the Python re
module (leftmost match, greedy repetition) on the relevant patterns.
Unicode-only edge cases (non-ASCII word characters for word boundaries,
multi-character lowercasing of exotic letters) are outside the model;
ASCII behaviour is faithful.
-/

set_option maxRecDepth 40000

/-- Character codes matched by the Python regex class backslash-s (and by
str.strip) for str patterns: ASCII whitespace, the information separators,
NEL, NBSP and the Unicode space separators. -/
def pySpaceCodes : List Nat :=
  [9, 10, 11, 12, 13, 28, 29, 30, 31, 32, 133, 160, 5760,
   8192, 8193, 8194, 8195, 8196, 8197, 8198, 8199, 8200, 8201, 8202,
   8232, 8233, 8239, 8287, 12288]

/-- Whitespace test matching the Python semantics above. -/
def isPySpace (c : Char) : Bool := pySpaceCodes.contains c.toNat

/-- ASCII letter, the regex class [a-zA-Z]. -/
def isAsciiLetter (c : Char) : Bool :=
  (65 ≤ c.toNat && c.toNat ≤ 90) || (97 ≤ c.toNat && c.toNat ≤ 122)

/-- ASCII lowercase letter. -/
def isLowerAlpha (c : Char) : Bool := 97 ≤ c.toNat && c.toNat ≤ 122

/-- Word characters other than letters (digits and underscore): these block
the regex word boundary next to a letter run.  Non-ASCII word characters
are not modelled. -/
def isDigitUnd (c : Char) : Bool := (48 ≤ c.toNat && c.toNat ≤ 57) || c.toNat == 95

/-- Python str.lower restricted to ASCII (the only case the tokenizer can
observe, since only [a-zA-Z] runs are collected). -/
def pyLower (c : Char) : Char :=
  if h : 65 ≤ c.toNat ∧ c.toNat ≤ 90 then
    Char.ofNatAux (c.toNat + 32) (Or.inl (by omega))
  else c

/-- Test whether the pattern is a prefix of the text. -/
def isPfx : List Char → List Char → Bool
  | [], _ => true
  | _ :: _, [] => false
  | p :: ps, c :: cs => p == c && isPfx ps cs

/-- Case-insensitive prefix test: the lowercase pattern against the
lowercased text, modelling re.IGNORECASE literal matching. -/
def isPfxLower : List Char → List Char → Bool
  | [], _ => true
  | _ :: _, [] => false
  | p :: ps, c :: cs => p == pyLower c && isPfxLower ps cs

/-- Test whether the pattern occurs anywhere in the text. -/
def containsSub (p : List Char) : List Char → Bool
  | [] => isPfx p []
  | c :: cs => isPfx p (c :: cs) || containsSub p cs

/-- Python str.strip: drop leading and trailing whitespace. -/
def pyStrip (cs : List Char) : List Char :=
  ((cs.dropWhile isPySpace).reverse.dropWhile isPySpace).reverse

/-- After two dashes, the pattern backslash-s* backslash-n can complete:
the maximal whitespace run starting here contains a newline. -/
def hasWsNl : List Char → Bool
  | [] => false
  | c :: cs => if c = '\n' then true else if isPySpace c then hasWsNl cs else false

/-- A match of the signature-delimiter pattern (two dashes, optional
whitespace, newline) starts at this position. -/
def sigHere : List Char → Bool
  | '-' :: '-' :: rest => hasWsNl rest
  | _ => false

/-- First cleaning substitution of _clean_text: re.sub of the pattern
(dash dash, backslash-s*, newline, dot-star with DOTALL) by the empty
string: everything from the leftmost match position to the end of the
text is removed. -/
def removeSigBlock : List Char → List Char
  | [] => []
  | c :: cs => if sigHere (c :: cs) then [] else c :: removeSigBlock cs

/-- Scanner for the case-insensitive line-tail removals (the Sent-from-my
and Get-Outlook-for substitutions).  In skip mode characters are dropped
until the next newline, which is kept, exactly as the DOTALL-free
dot-star consumes the rest of the line. -/
def markGo (pat : List Char) : Bool → List Char → List Char
  | _, [] => []
  | true, c :: cs =>
      if c = '\n' then '\n' :: markGo pat false cs else markGo pat true cs
  | false, c :: cs =>
      if isPfxLower pat (c :: cs) then markGo pat true cs
      else c :: markGo pat false cs

/-- Second substitution: re.sub of (Sent from my, dot-star) with
IGNORECASE; each occurrence is removed to the end of its line. -/
def removeSentFromMy (cs : List Char) : List Char :=
  markGo "sent from my".data false cs

/-- Third substitution: re.sub of (Get Outlook for, dot-star) with
IGNORECASE. -/
def removeOutlook (cs : List Char) : List Char :=
  markGo "get outlook for".data false cs

/-- Split at every newline, keeping the separators implicit; inverse of
joinNl. -/
def splitNl : List Char → List (List Char)
  | [] => [[]]
  | c :: cs =>
      if c = '\n' then [] :: splitNl cs
      else
        match splitNl cs with
        | [] => [[c]]
        | l :: ls => (c :: l) :: ls

/-- Join lines with single newlines. -/
def joinNl : List (List Char) → List Char
  | [] => []
  | [l] => l
  | l :: ls => l ++ '\n' :: joinNl ls

/-- Fourth substitution: re.sub of (caret, greater-than, dot-star,
dollar) with MULTILINE: the content of every line starting with a
greater-than sign is deleted, the newlines are kept. -/
def removeQuoted (cs : List Char) : List Char :=
  joinNl ((splitNl cs).map (fun l => if l.head? = some '>' then [] else l))

/-- Suffix strictly after the last occurrence of the pattern. -/
def afterLast (p : List Char) : List Char → List Char
  | [] => []
  | c :: cs =>
      if containsSub p cs then afterLast p cs
      else if isPfx p (c :: cs) then List.drop p.length (c :: cs)
      else []

/-- One line of the On-wrote substitution: the leftmost position where
the literal On-space is followed, later in the line, by the literal
space-wrote-colon starts a match; the greedy dot-star extends it to the
last such occurrence, and the match is deleted. -/
def owLine : List Char → List Char
  | [] => []
  | c :: cs =>
      if isPfx "On ".data (c :: cs) && containsSub " wrote:".data (List.drop 2 cs) then
        afterLast " wrote:".data (List.drop 2 cs)
      else c :: owLine cs

/-- Fifth substitution: re.sub of (On, space, dot-star, space, wrote,
colon) with no flags; matches cannot cross newlines, so the substitution
acts on each line independently. -/
def removeOnWrote (cs : List Char) : List Char :=
  joinNl ((splitNl cs).map owLine)

/-- A URL match (http or optional s, colon-slash-slash, then at least one
non-whitespace character) starts at this position. -/
def urlStart (l : List Char) : Bool :=
  (isPfx "http://".data l &&
    (match List.drop 7 l with | [] => false | c :: _ => !isPySpace c)) ||
  (isPfx "https://".data l &&
    (match List.drop 8 l with | [] => false | c :: _ => !isPySpace c))

/-- Scanner for the URL substitution: once a match starts, the greedy
non-whitespace-plus consumes every following non-whitespace character. -/
def urlGo : Bool → List Char → List Char
  | _, [] => []
  | true, c :: cs => if isPySpace c then c :: urlGo false cs else urlGo true cs
  | false, c :: cs => if urlStart (c :: cs) then urlGo true cs else c :: urlGo false cs

/-- Sixth substitution: re.sub of (http, optional s, colon-slash-slash,
non-whitespace-plus) by the empty string. -/
def removeUrl (cs : List Char) : List Char := urlGo false cs

/-- Scanner collapsing every whitespace run to a single space (re.sub of
backslash-s-plus by one space); the flag records whether the previous
character was whitespace. -/
def collapseGo : Bool → List Char → List Char
  | _, [] => []
  | b, c :: cs =>
      if isPySpace c then (if b then collapseGo true cs else ' ' :: collapseGo true cs)
      else c :: collapseGo false cs

/-- Whitespace collapsing, the last rewrite before the final strip. -/
def collapseWs (cs : List Char) : List Char := collapseGo false cs

/-- Summarizer._clean_text: the six substitutions in source order followed
by whitespace collapsing and strip. -/
def cleanText (cs : List Char) : List Char :=
  pyStrip (collapseWs (removeUrl (removeOnWrote (removeQuoted
    (removeOutlook (removeSentFromMy (removeSigBlock cs)))))))

/-- Bool test used by the sentence splitter lookbehind: the previously
scanned character (head of the reversed accumulator) is terminal
punctuation. -/
def headPunct : List Char → Bool
  | [] => false
  | c :: _ => c == '.' || c == '!' || c == '?'

/-- Scanner for re.split on (lookbehind [.!?], whitespace-plus).  The
some state carries the current piece reversed; the none state is inside
a delimiter run. -/
def spGo : Option (List Char) → List Char → List (List Char)
  | some cur, [] => [cur.reverse]
  | none, [] => [[]]
  | some cur, c :: cs =>
      if isPySpace c && headPunct cur then cur.reverse :: spGo none cs
      else spGo (some (c :: cur)) cs
  | none, c :: cs =>
      if isPySpace c then spGo none cs else spGo (some [c]) cs

/-- Raw split of the text at sentence boundaries, before trimming and
length filtering. -/
def splitRaw (cs : List Char) : List (List Char) := spGo (some []) cs

/-- Summarizer._split_sentences: split, strip each piece, keep only the
pieces longer than 20 characters. -/
def splitSentences (cs : List Char) : List (List Char) :=
  ((splitRaw cs).map pyStrip).filter (fun s => 20 < s.length)

/-- Token scanner for re.findall of (word boundary, [a-zA-Z] repeated at
least three times, word boundary): maximal ASCII letter runs of length at
least three whose neighbours are not digits or underscores.  The first
argument is the current letter run reversed, the flag records whether the
character before the run was a digit or underscore (blocking the left
boundary). -/
def tokGo (run : List Char) (blocked : Bool) : List Char → List (List Char)
  | [] => if blocked = false ∧ 3 ≤ run.length then [run.reverse] else []
  | c :: cs =>
      if isAsciiLetter c then tokGo (c :: run) blocked cs
      else
        (if blocked = false ∧ 3 ≤ run.length ∧ isDigitUnd c = false
         then [run.reverse] else []) ++ tokGo [] (isDigitUnd c) cs

/-- All word tokens of a text, in order, with multiplicity. -/
def tokensOf (cs : List Char) : List (List Char) := tokGo [] false cs

/-- STOP_WORDS of the source, as written there (the duplicate entry
from is kept; membership is unaffected). -/
def STOP_WORDS : List (List Char) :=
  ["the".data, "a".data, "an".data, "and".data, "or".data, "but".data, "in".data,
   "on".data, "at".data, "to".data, "for".data,
   "of".data, "with".data, "by".data, "from".data, "as".data, "is".data, "was".data,
   "are".data, "were".data, "been".data,
   "be".data, "have".data, "has".data, "had".data, "do".data, "does".data, "did".data,
   "will".data, "would".data,
   "could".data, "should".data, "may".data, "might".data, "must".data, "shall".data,
   "can".data, "need".data,
   "it".data, "its".data, "this".data, "that".data, "these".data, "those".data,
   "i".data, "you".data, "he".data,
   "she".data, "we".data, "they".data, "what".data, "which".data, "who".data,
   "whom".data, "when".data, "where".data,
   "why".data, "how".data, "all".data, "each".data, "every".data, "both".data,
   "few".data, "more".data, "most".data,
   "other".data, "some".data, "such".data, "no".data, "not".data, "only".data,
   "own".data, "same".data, "so".data,
   "than".data, "too".data, "very".data, "just".data, "also".data, "now".data,
   "here".data, "there".data, "then".data,
   "if".data, "else".data, "about".data, "into".data, "through".data, "during".data,
   "before".data, "after".data,
   "above".data, "below".data, "between".data, "under".data, "again".data,
   "further".data, "once".data,
   "hi".data, "hello".data, "dear".data, "regards".data, "thanks".data, "thank".data,
   "sincerely".data,
   "best".data, "cheers".data, "sent".data, "from".data, "subject".data, "re".data,
   "fwd".data, "fw".data]

/-- Lowercased tokens of a text with the stop words removed.  This is the
token pipeline shared by _get_word_frequencies (on the whole document)
and _score_sentence (on one sentence). -/
def qualWordsW (stop : List (List Char)) (cs : List Char) : List (List Char) :=
  (tokensOf (cs.map pyLower)).filter (fun w => !(stop.contains w))

/-- Summarizer._get_word_frequencies as a counting function: the Counter
entry of a word is its number of occurrences among the filtered words of
the document. -/
def wordFreqW (stop : List (List Char)) (cs : List Char) (w : List Char) : Nat :=
  (qualWordsW stop cs).count w

/-- Frequency sub-score: average frequency-table count of the qualifying
words of the sentence. -/
def freqScoreOfW (stop : List (List Char)) (freq : List Char → Nat)
    (s : List Char) : ℚ :=
  (((qualWordsW stop s).map (fun w => (freq w : ℚ))).sum) /
    ((qualWordsW stop s).length : ℚ)

/-- Position sub-score: 1 for the first two sentences, 1/2 when position
is at least total minus one, 0 otherwise. -/
def positionScoreOf (position total : Nat) : ℚ :=
  if position < 2 then 1 else if total - 1 ≤ position then 1/2 else 0

/-- Length sub-score from the qualifying-word count. -/
def lengthScoreOfW (stop : List (List Char)) (s : List Char) : ℚ :=
  if 10 ≤ (qualWordsW stop s).length ∧ (qualWordsW stop s).length ≤ 30 then 1
  else if (qualWordsW stop s).length < 10 then ((qualWordsW stop s).length : ℚ) / 10
  else 30 / ((qualWordsW stop s).length : ℚ)

/-- Summarizer._score_sentence: 0 when the sentence has no qualifying
words, otherwise the weighted combination of the three sub-scores. -/
def scoreSentenceW (stop : List (List Char)) (freq : List Char → Nat)
    (s : List Char) (position total : Nat) : ℚ :=
  if qualWordsW stop s = [] then 0
  else freqScoreOfW stop freq s * (1/2) + positionScoreOf position total * (3/10) +
       lengthScoreOfW stop s * (1/5)

/-- The scoring loop: index, sentence and score triples, in original
order, mirroring the enumerate loop of summarize. -/
def scoreListW (stop : List (List Char)) (freq : List Char → Nat) (total : Nat) :
    Nat → List (List Char) → List (Nat × List Char × ℚ)
  | _, [] => []
  | i, s :: ss => (i, s, scoreSentenceW stop freq s i total) :: scoreListW stop freq total (i + 1) ss

/-- Score projection of a scored triple. -/
def scOf (t : Nat × List Char × ℚ) : ℚ := t.2.2

/-- Stable descending insertion by score: the new element goes in front
of the first element whose score is not larger.  Folding this over the
list from the right reproduces the stable Python sort with key score and
reverse set. -/
def insertDesc (x : Nat × List Char × ℚ) :
    List (Nat × List Char × ℚ) → List (Nat × List Char × ℚ)
  | [] => [x]
  | y :: ys => if scOf y ≤ scOf x then x :: y :: ys else y :: insertDesc x ys

/-- Stable sort by descending score. -/
def sortDesc : List (Nat × List Char × ℚ) → List (Nat × List Char × ℚ)
  | [] => []
  | x :: xs => insertDesc x (sortDesc xs)

/-- Stable ascending insertion by original index, for the order
restoration sort on the selected triples. -/
def insertAsc (x : Nat × List Char × ℚ) :
    List (Nat × List Char × ℚ) → List (Nat × List Char × ℚ)
  | [] => [x]
  | y :: ys => if x.1 ≤ y.1 then x :: y :: ys else y :: insertAsc x ys

/-- Stable sort by ascending original index. -/
def sortAsc : List (Nat × List Char × ℚ) → List (Nat × List Char × ℚ)
  | [] => []
  | x :: xs => insertAsc x (sortAsc xs)

/-- Python string join with a single space. -/
def joinSp : List (List Char) → List Char
  | [] => []
  | [s] => s
  | s :: ss => s ++ ' ' :: joinSp ss

/-- The scored triples summarize builds when it has to select. -/
def scoredW (stop : List (List Char)) (text : List Char) : List (Nat × List Char × ℚ) :=
  scoreListW stop (wordFreqW stop (cleanText text))
    ((splitSentences (cleanText text)).length) 0 (splitSentences (cleanText text))

/-- The selected triples: top maxS by the descending stable score sort,
re-sorted into ascending original index order. -/
def selW (stop : List (List Char)) (maxS : Nat) (text : List Char) :
    List (Nat × List Char × ℚ) :=
  sortAsc (List.take maxS (sortDesc (scoredW stop text)))

/-- Summarizer.summarize, parameterized by the stop-word set and
max_sentences. -/
def summarizeW (stop : List (List Char)) (maxS : Nat) (text : List Char) : List Char :=
  if pyStrip text = [] then "No content to summarize.".data
  else if (cleanText text).length < 50 then
    (if cleanText text = [] then "No meaningful content found.".data else cleanText text)
  else if splitSentences (cleanText text) = [] then
    (if 200 < (cleanText text).length then (cleanText text).take 200 ++ "...".data
     else cleanText text)
  else if (splitSentences (cleanText text)).length ≤ maxS then
    joinSp (splitSentences (cleanText text))
  else joinSp ((selW stop maxS text).map (fun t => t.2.1))

/-- The summarize method with the stop words of the source. -/
def summarize (maxS : Nat) (text : List Char) : List Char :=
  summarizeW STOP_WORDS maxS text

/-- The singleton summarizer of the module: max_sentences is 3. -/
def summarizeEmail (text : List Char) : List Char := summarize 3 text

/-- Decomposition witness for the raw sentence split: the pieces of the
split, glued back with nonempty all-whitespace delimiters, reproduce the
input text. -/
inductive Glued : List (List Char) → List Char → Prop where
  | single (p : List Char) : Glued [p] p
  | cons (p : List Char) (c : Char) (d rest : List Char) (ps : List (List Char)) :
      isPySpace c = true → (∀ x ∈ d, isPySpace x = true) → Glued ps rest →
      Glued (p :: ps) (p ++ c :: (d ++ rest))

/-- Order in which the descending stable sort emits scored triples: a
strictly larger score, or an equal score with a smaller original index. -/
def selRel (a b : Nat × List Char × ℚ) : Prop :=
  scOf b < scOf a ∨ (scOf b = scOf a ∧ a.1 < b.1)

/-- C1: summarize is a total function on strings, and the degenerate cases
return the fixed fallbacks: empty or whitespace-only input gives the
no-content message; a cleaned text under 50 characters is returned as is
(or the no-meaningful-content message when empty); when no sentences
survive splitting, the first 200 characters are returned, with an
ellipsis suffix exactly when the cleaned text is longer than 200
characters. -/
theorem summarize_total_fallbacks (text : List Char) :
    (pyStrip text = [] → summarizeEmail text = "No content to summarize.".data) ∧
    (pyStrip text ≠ [] → (cleanText text).length < 50 →
      summarizeEmail text =
        (if cleanText text = [] then "No meaningful content found.".data
         else cleanText text)) ∧
    (pyStrip text ≠ [] → 50 ≤ (cleanText text).length →
      splitSentences (cleanText text) = [] →
      summarizeEmail text =
        (if 200 < (cleanText text).length then (cleanText text).take 200 ++ "...".data
         else cleanText text)) := by
  refine ⟨fun h1 => ?_, fun h1 h2 => ?_, fun h1 h2 h3 => ?_⟩ <;>
    unfold summarizeEmail summarize summarizeW
  · rw [if_pos h1]
  · rw [if_neg h1, if_pos h2]
  · rw [if_neg h1, if_neg (by omega), if_pos h3]

/-- Witness for C1 at concrete inputs covering each degenerate branch. -/
theorem summarize_total_fallbacks_witness :
    (pyStrip "  ".data = [] ∧
      summarizeEmail "  ".data = "No content to summarize.".data) ∧
    (pyStrip "Short note.".data ≠ [] ∧ (cleanText "Short note.".data).length < 50 ∧
      summarizeEmail "Short note.".data =
        (if cleanText "Short note.".data = [] then "No meaningful content found.".data
         else cleanText "Short note.".data)) ∧
    (pyStrip "Ok. Ok. Ok. Ok. Ok. Ok. Ok. Ok. Ok. Ok. Ok. Ok. Ok. Ok.".data ≠ [] ∧
      50 ≤ (cleanText "Ok. Ok. Ok. Ok. Ok. Ok. Ok. Ok. Ok. Ok. Ok. Ok. Ok. Ok.".data).length ∧
      splitSentences (cleanText "Ok. Ok. Ok. Ok. Ok. Ok. Ok. Ok. Ok. Ok. Ok. Ok. Ok. Ok.".data) = [] ∧
      summarizeEmail "Ok. Ok. Ok. Ok. Ok. Ok. Ok. Ok. Ok. Ok. Ok. Ok. Ok. Ok.".data =
        (if 200 < (cleanText "Ok. Ok. Ok. Ok. Ok. Ok. Ok. Ok. Ok. Ok. Ok. Ok. Ok. Ok.".data).length
         then (cleanText "Ok. Ok. Ok. Ok. Ok. Ok. Ok. Ok. Ok. Ok. Ok. Ok. Ok. Ok.".data).take 200 ++ "...".data
         else cleanText "Ok. Ok. Ok. Ok. Ok. Ok. Ok. Ok. Ok. Ok. Ok. Ok. Ok. Ok.".data)) :=
  ⟨⟨by decide, (summarize_total_fallbacks "  ".data).1 (by decide)⟩,
   ⟨by decide, by decide,
    (summarize_total_fallbacks "Short note.".data).2.1 (by decide) (by decide)⟩,
   ⟨by decide, by decide, by decide,
    (summarize_total_fallbacks "Ok. Ok. Ok. Ok. Ok. Ok. Ok. Ok. Ok. Ok. Ok. Ok. Ok. Ok.".data).2.2
      (by decide) (by decide) (by decide)⟩⟩

/-- C4 counterexample: the Sent-from-my substitution has no DOTALL flag,
so it removes only to the end of the line, not to the end of the text;
the following line survives into the cleaned text, contradicting the
claim that everything after the boilerplate line is removed. -/
theorem sent_from_my_cex :
    removeSentFromMy "Hello team.\nSent from my iPhone\nThe budget report is attached.".data
      = "Hello team.\n\nThe budget report is attached.".data ∧
    removeSentFromMy "Hello team.\nSent from my iPhone\nThe budget report is attached.".data
      ≠ "Hello team.\n".data ∧
    cleanText "Hello team.\nSent from my iPhone\nThe budget report is attached.".data
      = "Hello team. The budget report is attached.".data ∧
    cleanText "Hello team.\nSent from my iPhone\nThe budget report is attached.".data
      ≠ "Hello team.".data := by
  refine ⟨by decide, by decide, by decide, by decide⟩

theorem markGo_skip_to_nl (pat : List Char) :
    ∀ (D C : List Char), '\n' ∉ D →
      markGo pat true (D ++ '\n' :: C) = '\n' :: markGo pat false C := by
  intro D
  induction D with
  | nil => intro C _; rfl
  | cons d D ih =>
    intro C hnl
    have hd : d ≠ '\n' := fun h => hnl (h ▸ List.mem_cons_self ..)
    simp only [List.cons_append, markGo, if_neg hd]
    exact ih C (fun h => hnl (List.mem_cons_of_mem _ h))

theorem isPfxLower_map_self : ∀ (M rest : List Char),
    isPfxLower (M.map pyLower) (M ++ rest) = true := by
  intro M
  induction M with
  | nil => intro rest; rfl
  | cons m M ih =>
    intro rest
    simp only [List.map_cons, List.cons_append, isPfxLower, beq_self_eq_true,
      Bool.true_and]
    exact ih rest

theorem markGo_line_removal (p : List Char) (hp : p ≠ []) (hnl : '\n' ∉ p) :
    ∀ (A M B C : List Char),
      (∀ i, i < A.length →
        isPfxLower p (List.drop i (A ++ (M ++ (B ++ '\n' :: C)))) = false) →
      M.map pyLower = p → '\n' ∉ B →
      markGo p false (A ++ (M ++ (B ++ '\n' :: C))) = A ++ '\n' :: markGo p false C := by
  intro A
  induction A with
  | nil =>
    intro M B C _ hM hB
    cases M with
    | nil => exact absurd hM.symm (by simpa using hp)
    | cons m M =>
      simp only [List.nil_append, List.cons_append]
      have hpfx : isPfxLower p ((m :: M) ++ (B ++ '\n' :: C)) = true := by
        rw [← hM]
        exact isPfxLower_map_self (m :: M) (B ++ '\n' :: C)
      simp only [List.cons_append] at hpfx
      rw [markGo, if_pos hpfx]
      have hMnl : '\n' ∉ M := by
        intro h
        apply hnl
        rw [← hM]
        have : pyLower '\n' ∈ (m :: M).map pyLower :=
          List.mem_map_of_mem pyLower (List.mem_cons_of_mem _ h)
        simpa using this
      have hD : '\n' ∉ M ++ B := by
        intro h
        rcases List.mem_append.mp h with h | h
        · exact hMnl h
        · exact hB h
      rw [← List.append_assoc]
      exact markGo_skip_to_nl p (M ++ B) C hD
  | cons a A ih =>
    intro M B C hA hM hB
    have h0 : isPfxLower p (a :: (A ++ (M ++ (B ++ '\n' :: C)))) = false := by
      have := hA 0 (by simp)
      simpa using this
    simp only [List.cons_append]
    rw [markGo, if_neg (by simp [h0])]
    rw [ih M B C (fun i hi => by
        have := hA (i + 1) (by simp; omega)
        simpa [List.cons_append] using this) hM hB]

/-- C4 amended: for every text of the form A, marker, line tail B,
newline, continuation C, where the case-insensitive marker (any casing M
of Sent from my, or of Get Outlook for) first matches right after A and
the tail B stays on the marker line, the substitution removes exactly
from the marker to the end of that line; the preceding text, the newline
and all following lines are preserved, the rest being processed
normally. -/
theorem line_tail_removal_amended :
    (∀ A M B C : List Char,
      (∀ i, i < A.length →
        isPfxLower "sent from my".data (List.drop i (A ++ (M ++ (B ++ '\n' :: C)))) = false) →
      M.map pyLower = "sent from my".data → '\n' ∉ B →
      removeSentFromMy (A ++ (M ++ (B ++ '\n' :: C))) = A ++ '\n' :: removeSentFromMy C) ∧
    (∀ A M B C : List Char,
      (∀ i, i < A.length →
        isPfxLower "get outlook for".data (List.drop i (A ++ (M ++ (B ++ '\n' :: C)))) = false) →
      M.map pyLower = "get outlook for".data → '\n' ∉ B →
      removeOutlook (A ++ (M ++ (B ++ '\n' :: C))) = A ++ '\n' :: removeOutlook C) :=
  ⟨markGo_line_removal _ (by decide) (by decide),
   markGo_line_removal _ (by decide) (by decide)⟩

/-- Witness for the amended C4 at concrete preceding text, markers in
mixed case, line tails and continuations. -/
theorem line_tail_removal_amended_witness :
    ((∀ i, i < "Hi all.\n".data.length →
        isPfxLower "sent from my".data
          (List.drop i ("Hi all.\n".data ++ ("Sent From My".data ++
            (" iPhone".data ++ '\n' :: "Thanks again.".data)))) = false) ∧
      "Sent From My".data.map pyLower = "sent from my".data ∧
      '\n' ∉ " iPhone".data ∧
      removeSentFromMy ("Hi all.\n".data ++ ("Sent From My".data ++
          (" iPhone".data ++ '\n' :: "Thanks again.".data))) =
        "Hi all.\n".data ++ '\n' :: removeSentFromMy "Thanks again.".data) ∧
    ((∀ i, i < "Cheers.\n".data.length →
        isPfxLower "get outlook for".data
          (List.drop i ("Cheers.\n".data ++ ("Get Outlook For".data ++
            (" Android".data ++ '\n' :: "See you soon.".data)))) = false) ∧
      "Get Outlook For".data.map pyLower = "get outlook for".data ∧
      '\n' ∉ " Android".data ∧
      removeOutlook ("Cheers.\n".data ++ ("Get Outlook For".data ++
          (" Android".data ++ '\n' :: "See you soon.".data))) =
        "Cheers.\n".data ++ '\n' :: removeOutlook "See you soon.".data) :=
  ⟨⟨by decide, by decide, by decide,
    line_tail_removal_amended.1 "Hi all.\n".data "Sent From My".data " iPhone".data
      "Thanks again.".data (by decide) (by decide) (by decide)⟩,
   ⟨by decide, by decide, by decide,
    line_tail_removal_amended.2 "Cheers.\n".data "Get Outlook For".data " Android".data
      "See you soon.".data (by decide) (by decide) (by decide)⟩⟩

/-- C5 counterexample: the signature pattern requires a newline after the
two dashes, so a standalone final delimiter line with no trailing newline
is not removed, contradicting the claim that the final-line case is
covered. -/
theorem sig_delim_cex :
    removeSigBlock "Meeting notes attached below soon.\n--".data
      = "Meeting notes attached below soon.\n--".data ∧
    removeSigBlock "Meeting notes attached below soon.\n--".data
      ≠ "Meeting notes attached below soon.\n".data ∧
    cleanText "Meeting notes attached below soon.\n--".data
      = "Meeting notes attached below soon. --".data := by
  refine ⟨by decide, by decide, by decide⟩

/-- C5 amended: for every preceding text A and every continuation C,
when a double-dash line is followed by a newline, everything from the
dashes to the end of the text is removed: the result is always a prefix
of A, and it is exactly A when no earlier position of the text starts a
delimiter match. -/
theorem sig_delim_amended :
    (∀ A C : List Char, ∃ E : List Char,
      removeSigBlock (A ++ ('-' :: '-' :: '\n' :: C)) ++ E = A) ∧
    (∀ A C : List Char,
      (∀ i, i < A.length →
        sigHere (List.drop i (A ++ ('-' :: '-' :: '\n' :: C))) = false) →
      removeSigBlock (A ++ ('-' :: '-' :: '\n' :: C)) = A) := by
  constructor
  · intro A C
    induction A with
    | nil => exact ⟨[], rfl⟩
    | cons a A ih =>
      rcases ih with ⟨E, hE⟩
      simp only [List.cons_append]
      rw [removeSigBlock]
      split
      · exact ⟨a :: A, rfl⟩
      · exact ⟨E, by rw [List.cons_append, hE]⟩
  · intro A C hA
    induction A with
    | nil => rfl
    | cons a A ih =>
      have h0 : sigHere (a :: (A ++ ('-' :: '-' :: '\n' :: C))) = false := by
        have := hA 0 (by simp)
        simpa using this
      simp only [List.cons_append]
      rw [removeSigBlock, if_neg (by simp [h0])]
      rw [ih (fun i hi => by
        have := hA (i + 1) (by simp; omega)
        simpa [List.cons_append] using this)]

/-- Witness for the amended C5 at a concrete preceding text and
continuation. -/
theorem sig_delim_amended_witness :
    (∃ E : List Char,
      removeSigBlock ("Kind regards to everyone.\n".data ++
        ('-' :: '-' :: '\n' :: "John Smith".data)) ++ E =
        "Kind regards to everyone.\n".data) ∧
    (∀ i, i < "Kind regards to everyone.\n".data.length →
      sigHere (List.drop i ("Kind regards to everyone.\n".data ++
        ('-' :: '-' :: '\n' :: "John Smith".data))) = false) ∧
    removeSigBlock ("Kind regards to everyone.\n".data ++
      ('-' :: '-' :: '\n' :: "John Smith".data)) =
      "Kind regards to everyone.\n".data :=
  ⟨sig_delim_amended.1 "Kind regards to everyone.\n".data "John Smith".data,
   by decide,
   sig_delim_amended.2 "Kind regards to everyone.\n".data "John Smith".data (by decide)⟩

/-- C2 counterexample: a sentence scored during selection whose
qualifying-word list is empty receives the score 0 from the code, while
the claimed formula evaluates to 3/10 there (the position sub-score of a
first sentence times its weight), so the claim as stated fails. -/
theorem score_formula_cex :
    (splitSentences (cleanText "is is is is is is is is. Budget meeting moved friday afternoon room. Please bring updated numbers report. Team discussed budget numbers report yesterday. Final decision expected budget meeting soon.".data)).length = 5 ∧
    (scoredW STOP_WORDS "is is is is is is is is. Budget meeting moved friday afternoon room. Please bring updated numbers report. Team discussed budget numbers report yesterday. Final decision expected budget meeting soon.".data).head?
      = some (0, "is is is is is is is is.".data, 0) ∧
    scoreSentenceW STOP_WORDS
      (wordFreqW STOP_WORDS (cleanText "is is is is is is is is. Budget meeting moved friday afternoon room. Please bring updated numbers report. Team discussed budget numbers report yesterday. Final decision expected budget meeting soon.".data))
      "is is is is is is is is.".data 0 5 = 0 ∧
    freqScoreOfW STOP_WORDS
        (wordFreqW STOP_WORDS (cleanText "is is is is is is is is. Budget meeting moved friday afternoon room. Please bring updated numbers report. Team discussed budget numbers report yesterday. Final decision expected budget meeting soon.".data))
        "is is is is is is is is.".data * (1/2) +
      positionScoreOf 0 5 * (3/10) +
      lengthScoreOfW STOP_WORDS "is is is is is is is is.".data * (1/5) = 3/10 ∧
    (0 : ℚ) ≠ 3/10 := by
  refine ⟨by decide, by decide, by decide, ?_, by norm_num⟩
  have h1 : qualWordsW STOP_WORDS "is is is is is is is is.".data = [] := by decide
  have h2 : positionScoreOf 0 5 = 1 := rfl
  unfold freqScoreOfW lengthScoreOfW
  rw [h1, h2]
  norm_num

/-- C2 amended: for a sentence with at least one qualifying word the
score is 0.5 frequency + 0.3 position + 0.2 length with the sub-scores
as claimed; a sentence with no qualifying words scores 0, not
0.3 position + 0.2 length. -/
theorem score_formula_amended (freq : List Char → Nat) (s : List Char) (pos total : Nat)
    (h : pos < total) :
    scoreSentenceW STOP_WORDS freq s pos total =
      if qualWordsW STOP_WORDS s = [] then 0
      else freqScoreOfW STOP_WORDS freq s * (1/2) +
        (if pos = 0 ∨ pos = 1 then (1 : ℚ) else if pos = total - 1 then 1/2 else 0) * (3/10) +
        lengthScoreOfW STOP_WORDS s * (1/5) := by
  have hp : positionScoreOf pos total =
      (if pos = 0 ∨ pos = 1 then (1 : ℚ) else if pos = total - 1 then 1/2 else 0) := by
    unfold positionScoreOf
    split_ifs <;> first | rfl | omega
  unfold scoreSentenceW
  rw [hp]

/-- Witness for the amended C2 at a concrete sentence, frequency table
and position. -/
theorem score_formula_amended_witness :
    0 < 1 ∧
    scoreSentenceW STOP_WORDS (fun _ => 2) "Budget numbers look strong today.".data 0 1 =
      (if qualWordsW STOP_WORDS "Budget numbers look strong today.".data = [] then 0
       else freqScoreOfW STOP_WORDS (fun _ => 2) "Budget numbers look strong today.".data * (1/2) +
         (if (0 : Nat) = 0 ∨ (0 : Nat) = 1 then (1 : ℚ) else if (0 : Nat) = 1 - 1 then 1/2 else 0) * (3/10) +
         lengthScoreOfW STOP_WORDS "Budget numbers look strong today.".data * (1/5)) :=
  ⟨by decide, score_formula_amended (fun _ => 2) "Budget numbers look strong today.".data 0 1 (by decide)⟩

theorem toNat_pyLower (c : Char) :
    (pyLower c).toNat = if 65 ≤ c.toNat ∧ c.toNat ≤ 90 then c.toNat + 32 else c.toNat := by
  unfold pyLower
  split <;> rfl

theorem pyLower_lower_of_letter (c : Char)
    (h : isAsciiLetter (pyLower c) = true) : isLowerAlpha (pyLower c) = true := by
  have ht := toNat_pyLower c
  simp [isAsciiLetter, isLowerAlpha] at *
  split at ht <;> omega

theorem tokGo_len : ∀ (cs run : List Char) (b : Bool) (w : List Char),
    w ∈ tokGo run b cs → 3 ≤ w.length := by
  intro cs
  induction cs with
  | nil =>
    intro run b w h
    unfold tokGo at h
    split at h
    · next hc =>
      simp only [List.mem_singleton] at h
      subst h
      simpa using hc.2
    · simp at h
  | cons a cs ih =>
    intro run b w h
    unfold tokGo at h
    split at h
    · exact ih _ _ _ h
    · rcases List.mem_append.mp h with h1 | h1
      · split at h1
        · next hc =>
          simp only [List.mem_singleton] at h1
          subst h1
          simpa using hc.2.1
        · simp at h1
      · exact ih _ _ _ h1

theorem tokGo_chars : ∀ (cs run : List Char) (b : Bool),
    (∀ x ∈ run, isAsciiLetter x = true) →
    ∀ w ∈ tokGo run b cs, ∀ c ∈ w, isAsciiLetter c = true ∧ (c ∈ run ∨ c ∈ cs) := by
  intro cs
  induction cs with
  | nil =>
    intro run b hrun w hw c hc
    unfold tokGo at hw
    split at hw
    · simp only [List.mem_singleton] at hw
      subst hw
      exact ⟨hrun c (List.mem_reverse.mp hc), Or.inl (List.mem_reverse.mp hc)⟩
    · simp at hw
  | cons a cs ih =>
    intro run b hrun w hw c hc
    unfold tokGo at hw
    split at hw
    · next ha =>
      have hrun2 : ∀ x ∈ a :: run, isAsciiLetter x = true := by
        intro x hx
        rcases List.mem_cons.mp hx with rfl | hx
        · exact ha
        · exact hrun x hx
      rcases ih (a :: run) b hrun2 w hw c hc with ⟨hl, hm⟩
      refine ⟨hl, ?_⟩
      rcases hm with h1 | h1
      · rcases List.mem_cons.mp h1 with rfl | h1
        · exact Or.inr (List.mem_cons_self ..)
        · exact Or.inl h1
      · exact Or.inr (List.mem_cons_of_mem _ h1)
    · rcases List.mem_append.mp hw with h1 | h1
      · split at h1
        · simp only [List.mem_singleton] at h1
          subst h1
          exact ⟨hrun c (List.mem_reverse.mp hc), Or.inl (List.mem_reverse.mp hc)⟩
        · simp at h1
      · rcases ih [] (isDigitUnd a) (by intro x hx; simp at hx) w h1 c hc with ⟨hl, hm⟩
        rcases hm with h2 | h2
        · simp at h2
        · exact ⟨hl, Or.inr (List.mem_cons_of_mem _ h2)⟩

theorem tokensOf_lower_props (cs w : List Char) (h : w ∈ tokensOf (cs.map pyLower)) :
    3 ≤ w.length ∧ ∀ c ∈ w, isLowerAlpha c = true := by
  refine ⟨tokGo_len _ _ _ _ h, fun c hc => ?_⟩
  rcases tokGo_chars (cs.map pyLower) [] false (by simp) w h c hc with ⟨hl, hm⟩
  rcases hm with h3 | h3
  · simp at h3
  · rcases List.mem_map.mp h3 with ⟨c0, _, rfl⟩
    exact pyLower_lower_of_letter c0 hl

theorem contains_filter_len (w : List Char) (h : 3 ≤ w.length) :
    (STOP_WORDS.filter (fun x => 3 ≤ x.length)).contains w = STOP_WORDS.contains w := by
  by_cases hm : w ∈ STOP_WORDS
  · have h1 : (STOP_WORDS.filter (fun x => 3 ≤ x.length)).contains w = true := by
      rw [List.elem_iff]
      exact List.mem_filter.mpr ⟨hm, by simpa using h⟩
    have h2 : STOP_WORDS.contains w = true := List.elem_iff.mpr hm
    rw [h1, h2]
  · have h1 : (STOP_WORDS.filter (fun x => 3 ≤ x.length)).contains w = false := by
      rw [Bool.eq_false_iff]
      intro hcon
      exact hm (List.mem_filter.mp (List.elem_iff.mp hcon)).1
    have h2 : STOP_WORDS.contains w = false := by
      rw [Bool.eq_false_iff]
      intro hcon
      exact hm (List.elem_iff.mp hcon)
    rw [h1, h2]

theorem qualWords_stop_filter (cs : List Char) :
    qualWordsW STOP_WORDS cs = qualWordsW (STOP_WORDS.filter (fun x => 3 ≤ x.length)) cs := by
  unfold qualWordsW
  apply List.filter_congr
  intro w hw
  rw [contains_filter_len w (tokGo_len _ _ _ _ hw)]

theorem wordFreq_stop_filter (cs : List Char) :
    wordFreqW STOP_WORDS cs = wordFreqW (STOP_WORDS.filter (fun x => 3 ≤ x.length)) cs := by
  funext w
  unfold wordFreqW
  rw [qualWords_stop_filter]

theorem scoreSentence_stop_filter (freq : List Char → Nat) (s : List Char) (pos total : Nat) :
    scoreSentenceW STOP_WORDS freq s pos total =
      scoreSentenceW (STOP_WORDS.filter (fun x => 3 ≤ x.length)) freq s pos total := by
  unfold scoreSentenceW freqScoreOfW lengthScoreOfW
  rw [qualWords_stop_filter]

theorem scoreList_stop_filter (freq : List Char → Nat) (total : Nat) :
    ∀ (i : Nat) (ss : List (List Char)),
      scoreListW STOP_WORDS freq total i ss =
        scoreListW (STOP_WORDS.filter (fun x => 3 ≤ x.length)) freq total i ss := by
  intro i ss
  induction ss generalizing i with
  | nil => rfl
  | cons s ss ih =>
    unfold scoreListW
    rw [scoreSentence_stop_filter, ih]

/-- C10: the stop-word entries shorter than three characters are inert:
summarize with the full stop-word set equals summarize with the set
restricted to entries of length at least three, for every input and
every max_sentences, because the tokenizer only produces tokens of
length at least three. -/
theorem short_stop_words_inert (maxS : Nat) (text : List Char) :
    summarizeW STOP_WORDS maxS text =
      summarizeW (STOP_WORDS.filter (fun x => 3 ≤ x.length)) maxS text := by
  unfold summarizeW selW scoredW
  rw [wordFreq_stop_filter, scoreList_stop_filter]

/-- C8: every key of the frequency table (every word with a positive
count) is a lowercase alphabetic word of length at least three that is
not a stop word, and the qualifying words collected for any sentence
pass the same stop-word filter. -/
theorem freq_table_keys (cs w : List Char) :
    (0 < wordFreqW STOP_WORDS cs w →
      (∀ c ∈ w, isLowerAlpha c = true) ∧ 3 ≤ w.length ∧
        STOP_WORDS.contains w = false) ∧
    (∀ s : List Char, w ∈ qualWordsW STOP_WORDS s →
      STOP_WORDS.contains w = false) := by
  constructor
  · intro h
    have hmem : w ∈ qualWordsW STOP_WORDS cs := List.count_pos_iff.mp h
    rcases List.mem_filter.mp hmem with ⟨htok, hstop⟩
    rcases tokensOf_lower_props cs w htok with ⟨hlen, hchar⟩
    exact ⟨hchar, hlen, by simpa using hstop⟩
  · intro s hs
    have := (List.mem_filter.mp hs).2
    simpa using this

/-- Witness for C8 at a concrete document, word and sentence. -/
theorem freq_table_keys_witness :
    (0 < wordFreqW STOP_WORDS "Budget meeting budget.".data "budget".data ∧
      ((∀ c ∈ "budget".data, isLowerAlpha c = true) ∧ 3 ≤ "budget".data.length ∧
        STOP_WORDS.contains "budget".data = false)) ∧
    ("budget".data ∈ qualWordsW STOP_WORDS "Budget meeting budget.".data ∧
      STOP_WORDS.contains "budget".data = false) :=
  ⟨⟨by decide, (freq_table_keys "Budget meeting budget.".data "budget".data).1 (by decide)⟩,
   ⟨by decide, (freq_table_keys "Budget meeting budget.".data "budget".data).2
      "Budget meeting budget.".data (by decide)⟩⟩

theorem removeSigBlock_subset : ∀ (cs : List Char) (c : Char), c ∈ removeSigBlock cs → c ∈ cs := by
  intro cs
  induction cs with
  | nil => intro c h; simp [removeSigBlock] at h
  | cons a cs ih =>
    intro c h
    unfold removeSigBlock at h
    split at h
    · simp at h
    · rcases List.mem_cons.mp h with rfl | h
      · exact List.mem_cons_self ..
      · exact List.mem_cons_of_mem _ (ih _ h)

theorem markGo_subset (pat : List Char) : ∀ (cs : List Char) (b : Bool) (c : Char),
    c ∈ markGo pat b cs → c ∈ cs := by
  intro cs
  induction cs with
  | nil => intro b c h; cases b <;> simp [markGo] at h
  | cons a cs ih =>
    intro b c h
    cases b
    · simp only [markGo] at h
      split at h
      · exact List.mem_cons_of_mem _ (ih _ _ h)
      · rcases List.mem_cons.mp h with rfl | h
        · exact List.mem_cons_self ..
        · exact List.mem_cons_of_mem _ (ih _ _ h)
    · simp only [markGo] at h
      split at h
      · next ha =>
        rcases List.mem_cons.mp h with rfl | h
        · subst ha; exact List.mem_cons_self ..
        · exact List.mem_cons_of_mem _ (ih _ _ h)
      · exact List.mem_cons_of_mem _ (ih _ _ h)

theorem splitNl_subset : ∀ (cs : List Char) (l : List Char), l ∈ splitNl cs →
    ∀ c ∈ l, c ∈ cs := by
  intro cs
  induction cs with
  | nil =>
    intro l hl c hc
    simp [splitNl] at hl
    subst hl
    simp at hc
  | cons a cs ih =>
    intro l hl c hc
    unfold splitNl at hl
    split at hl
    · rcases List.mem_cons.mp hl with rfl | hl
      · simp at hc
      · exact List.mem_cons_of_mem _ (ih _ hl _ hc)
    · split at hl
      · next heq =>
        simp only [List.mem_singleton] at hl
        subst hl
        simp only [List.mem_singleton] at hc
        subst hc
        exact List.mem_cons_self ..
      · next l0 ls heq =>
        rcases List.mem_cons.mp hl with rfl | hl
        · rcases List.mem_cons.mp hc with rfl | hc
          · exact List.mem_cons_self ..
          · exact List.mem_cons_of_mem _ (ih l0 (heq ▸ List.mem_cons_self ..) _ hc)
        · exact List.mem_cons_of_mem _ (ih l (heq ▸ List.mem_cons_of_mem _ hl) _ hc)

theorem joinNl_subset : ∀ (ls : List (List Char)) (c : Char), c ∈ joinNl ls →
    (∃ l ∈ ls, c ∈ l) ∨ c = '\n' := by
  intro ls
  induction ls with
  | nil => intro c h; simp [joinNl] at h
  | cons l ls ih =>
    intro c h
    cases ls with
    | nil => exact Or.inl ⟨l, List.mem_cons_self .., h⟩
    | cons l2 ls2 =>
      rcases List.mem_append.mp h with h1 | h1
      · exact Or.inl ⟨l, List.mem_cons_self .., h1⟩
      · rcases List.mem_cons.mp h1 with rfl | h1
        · exact Or.inr rfl
        · rcases ih c h1 with ⟨l3, hl3, hc3⟩ | rfl
          · exact Or.inl ⟨l3, List.mem_cons_of_mem _ hl3, hc3⟩
          · exact Or.inr rfl

theorem afterLast_subset (p : List Char) : ∀ (cs : List Char) (c : Char),
    c ∈ afterLast p cs → c ∈ cs := by
  intro cs
  induction cs with
  | nil => intro c h; simp [afterLast] at h
  | cons a cs ih =>
    intro c h
    unfold afterLast at h
    split at h
    · exact List.mem_cons_of_mem _ (ih _ h)
    · split at h
      · exact List.drop_subset _ _ h
      · simp at h

theorem owLine_subset : ∀ (cs : List Char) (c : Char), c ∈ owLine cs → c ∈ cs := by
  intro cs
  induction cs with
  | nil => intro c h; simp [owLine] at h
  | cons a cs ih =>
    intro c h
    unfold owLine at h
    split at h
    · exact List.mem_cons_of_mem _ (List.drop_subset _ _ (afterLast_subset _ _ _ h))
    · rcases List.mem_cons.mp h with rfl | h
      · exact List.mem_cons_self ..
      · exact List.mem_cons_of_mem _ (ih _ h)

theorem urlGo_subset : ∀ (cs : List Char) (b : Bool) (c : Char),
    c ∈ urlGo b cs → c ∈ cs := by
  intro cs
  induction cs with
  | nil => intro b c h; cases b <;> simp [urlGo] at h
  | cons a cs ih =>
    intro b c h
    cases b
    · simp only [urlGo] at h
      split at h
      · exact List.mem_cons_of_mem _ (ih _ _ h)
      · rcases List.mem_cons.mp h with rfl | h
        · exact List.mem_cons_self ..
        · exact List.mem_cons_of_mem _ (ih _ _ h)
    · simp only [urlGo] at h
      split at h
      · rcases List.mem_cons.mp h with rfl | h
        · exact List.mem_cons_self ..
        · exact List.mem_cons_of_mem _ (ih _ _ h)
      · exact List.mem_cons_of_mem _ (ih _ _ h)

theorem collapseGo_ws : ∀ (cs : List Char) (b : Bool),
    (∀ x ∈ cs, isPySpace x = true) →
    ∀ c ∈ collapseGo b cs, isPySpace c = true := by
  intro cs
  induction cs with
  | nil => intro b _ c h; cases b <;> simp [collapseGo] at h
  | cons a cs ih =>
    intro b hws c h
    unfold collapseGo at h
    split at h
    · split at h
      · exact ih _ (fun x hx => hws x (List.mem_cons_of_mem _ hx)) c h
      · rcases List.mem_cons.mp h with rfl | h
        · decide
        · exact ih _ (fun x hx => hws x (List.mem_cons_of_mem _ hx)) c h
    · next ha => exact absurd (hws a (List.mem_cons_self ..)) (by simp [ha])

theorem removeQuoted_ws (cs : List Char) (hws : ∀ x ∈ cs, isPySpace x = true) :
    ∀ c ∈ removeQuoted cs, isPySpace c = true := by
  intro c h
  rcases joinNl_subset _ _ h with ⟨l, hl, hc⟩ | rfl
  · rcases List.mem_map.mp hl with ⟨l0, hl0, rfl⟩
    by_cases hh : l0.head? = some '>'
    · rw [if_pos hh] at hc
      simp at hc
    · rw [if_neg hh] at hc
      exact hws c (splitNl_subset _ _ hl0 _ hc)
  · decide

theorem removeOnWrote_ws (cs : List Char) (hws : ∀ x ∈ cs, isPySpace x = true) :
    ∀ c ∈ removeOnWrote cs, isPySpace c = true := by
  intro c h
  rcases joinNl_subset _ _ h with ⟨l, hl, hc⟩ | rfl
  · rcases List.mem_map.mp hl with ⟨l0, hl0, rfl⟩
    exact hws c (splitNl_subset _ _ hl0 _ (owLine_subset _ _ hc))
  · decide

theorem cleanText_of_ws (text : List Char) (hws : ∀ c ∈ text, isPySpace c = true) :
    cleanText text = [] := by
  unfold cleanText removeSentFromMy removeOutlook removeUrl collapseWs
  have h1 : ∀ c ∈ removeSigBlock text, isPySpace c = true :=
    fun c h => hws c (removeSigBlock_subset _ _ h)
  have h2 : ∀ c ∈ markGo "sent from my".data false (removeSigBlock text), isPySpace c = true :=
    fun c h => h1 c (markGo_subset _ _ _ _ h)
  have h3 : ∀ c ∈ markGo "get outlook for".data false
      (markGo "sent from my".data false (removeSigBlock text)), isPySpace c = true :=
    fun c h => h2 c (markGo_subset _ _ _ _ h)
  have h4 := removeQuoted_ws _ h3
  have h5 := removeOnWrote_ws _ h4
  have h6 : ∀ c ∈ urlGo false (removeOnWrote (removeQuoted
      (markGo "get outlook for".data false (markGo "sent from my".data false
        (removeSigBlock text))))), isPySpace c = true :=
    fun c h => h5 c (urlGo_subset _ _ _ h)
  have h7 := collapseGo_ws _ false h6
  unfold pyStrip
  rw [List.dropWhile_eq_nil_iff.mpr h7]
  rfl

theorem pyStrip_nil_ws (cs : List Char) (h : pyStrip cs = []) :
    ∀ c ∈ cs, isPySpace c = true := by
  unfold pyStrip at h
  rw [List.reverse_eq_nil_iff] at h
  have h3 : ∀ c ∈ (cs.dropWhile isPySpace).reverse, isPySpace c = true :=
    List.dropWhile_eq_nil_iff.mp h
  intro c hc
  rw [← List.takeWhile_append_dropWhile isPySpace cs] at hc
  rcases List.mem_append.mp hc with h4 | h4
  · exact List.mem_takeWhile_imp h4
  · exact h3 c (List.mem_reverse.mpr h4)

theorem clean_long_strip_ne (text : List Char) (h : 50 ≤ (cleanText text).length) :
    pyStrip text ≠ [] := by
  intro hnil
  rw [cleanText_of_ws text (pyStrip_nil_ws text hnil)] at h
  simp at h

/-- C6: whenever the cleaned text reaches the splitting stage and between
one and max_sentences sentences survive, summarize returns all of them
joined by single spaces, unscored and in original order. -/
theorem few_sentences_joined (text : List Char)
    (h50 : 50 ≤ (cleanText text).length)
    (hne : splitSentences (cleanText text) ≠ [])
    (hle : (splitSentences (cleanText text)).length ≤ 3) :
    summarizeEmail text = joinSp (splitSentences (cleanText text)) := by
  unfold summarizeEmail summarize summarizeW
  rw [if_neg (clean_long_strip_ne text h50), if_neg (by omega), if_neg hne, if_pos hle]

/-- Witness for C6: an input with exactly one surviving sentence, and one
with exactly three. -/
theorem few_sentences_joined_witness :
    (50 ≤ (cleanText "The quarterly budget meeting has been moved to Friday afternoon in the main room.".data).length ∧
     splitSentences (cleanText "The quarterly budget meeting has been moved to Friday afternoon in the main room.".data) ≠ [] ∧
     (splitSentences (cleanText "The quarterly budget meeting has been moved to Friday afternoon in the main room.".data)).length ≤ 3 ∧
     summarizeEmail "The quarterly budget meeting has been moved to Friday afternoon in the main room.".data =
       joinSp (splitSentences (cleanText "The quarterly budget meeting has been moved to Friday afternoon in the main room.".data))) ∧
    (splitSentences (cleanText "Budget numbers look strong overall. Testing starts tomorrow morning early. Release planned for next week.".data)).length = 3 ∧
    summarizeEmail "Budget numbers look strong overall. Testing starts tomorrow morning early. Release planned for next week.".data =
      joinSp (splitSentences (cleanText "Budget numbers look strong overall. Testing starts tomorrow morning early. Release planned for next week.".data)) :=
  ⟨⟨by decide, by decide, by decide,
    few_sentences_joined "The quarterly budget meeting has been moved to Friday afternoon in the main room.".data
      (by decide) (by decide) (by decide)⟩,
   by decide,
   few_sentences_joined "Budget numbers look strong overall. Testing starts tomorrow morning early. Release planned for next week.".data
     (by decide) (by decide) (by decide)⟩

theorem scoreListW_length (stop : List (List Char)) (freq : List Char → Nat) (total : Nat) :
    ∀ (i : Nat) (ss : List (List Char)), (scoreListW stop freq total i ss).length = ss.length := by
  intro i ss
  induction ss generalizing i with
  | nil => rfl
  | cons s ss ih => simp [scoreListW, ih]

theorem insertDesc_length (x : Nat × List Char × ℚ) :
    ∀ l : List (Nat × List Char × ℚ), (insertDesc x l).length = l.length + 1 := by
  intro l
  induction l with
  | nil => rfl
  | cons y ys ih =>
    unfold insertDesc
    split
    · rfl
    · simp [ih]

theorem sortDesc_length : ∀ l : List (Nat × List Char × ℚ), (sortDesc l).length = l.length := by
  intro l
  induction l with
  | nil => rfl
  | cons x xs ih => simp [sortDesc, insertDesc_length, ih]

theorem insertAsc_length (x : Nat × List Char × ℚ) :
    ∀ l : List (Nat × List Char × ℚ), (insertAsc x l).length = l.length + 1 := by
  intro l
  induction l with
  | nil => rfl
  | cons y ys ih =>
    unfold insertAsc
    split
    · rfl
    · simp [ih]

theorem sortAsc_length : ∀ l : List (Nat × List Char × ℚ), (sortAsc l).length = l.length := by
  intro l
  induction l with
  | nil => rfl
  | cons x xs ih => simp [sortAsc, insertAsc_length, ih]

theorem splitSentences_mem_len (cs s : List Char) (h : s ∈ splitSentences cs) :
    20 < s.length := by
  have := (List.mem_filter.mp h).2
  simpa using this

theorem joinSp_cons_cons_ne (a b : List Char) (l : List (List Char)) :
    joinSp (a :: b :: l) ≠ [] := by
  show a ++ ' ' :: joinSp (b :: l) ≠ []
  simp

/-- C7: for every input string, including empty, whitespace-only and
arbitrary noise, the string returned by summarize is never empty: every
branch yields a fallback message, the nonempty cleaned text, or a join
of surviving sentences. -/
theorem summarize_nonempty (text : List Char) : summarizeEmail text ≠ [] := by
  unfold summarizeEmail summarize summarizeW
  split_ifs with h1 h2 h3 h4 h5 h6
  · decide
  · decide
  · exact h3
  · simp
  · intro hctr
    rw [hctr] at h2
    simp at h2
  · cases hss : splitSentences (cleanText text) with
    | nil => exact absurd hss h4
    | cons s rest =>
      cases rest with
      | nil =>
        show joinSp [s] ≠ []
        have hlen : 20 < s.length := splitSentences_mem_len (cleanText text) s
          (by rw [hss]; exact List.mem_cons_self ..)
        show s ≠ []
        intro hnil
        rw [hnil] at hlen
        simp at hlen
      | cons b l => exact joinSp_cons_cons_ne s b l
  · have hlen : (selW STOP_WORDS 3 text).length = 3 := by
      unfold selW scoredW
      rw [sortAsc_length, List.length_take, sortDesc_length, scoreListW_length]
      omega
    cases hsel : (selW STOP_WORDS 3 text) with
    | nil => rw [hsel] at hlen; simp at hlen
    | cons a t =>
      cases t with
      | nil => rw [hsel] at hlen; simp at hlen
      | cons b t2 =>
        simp only [List.map_cons]
        exact joinSp_cons_cons_ne _ _ _

theorem glue_both : ∀ cs : List Char,
    (∀ cur : List Char, Glued (spGo (some cur) cs) (cur.reverse ++ cs)) ∧
    (∃ d rest : List Char, (∀ x ∈ d, isPySpace x = true) ∧ cs = d ++ rest ∧
      Glued (spGo none cs) rest) := by
  intro cs
  induction cs with
  | nil =>
    constructor
    · intro cur
      simpa [spGo] using Glued.single cur.reverse
    · exact ⟨[], [], by simp, rfl, Glued.single []⟩
  | cons c cs ih =>
    rcases ih with ⟨ihA, ihD⟩
    constructor
    · intro cur
      unfold spGo
      split
      · next hcond =>
        rcases ihD with ⟨d, rest, hd, hcs, hg⟩
        have hc2 : isPySpace c = true ∧ headPunct cur = true := by simpa using hcond
        subst hcs
        exact Glued.cons cur.reverse c d rest _ hc2.1 hd hg
      · have := ihA (c :: cur)
        simpa using this
    · unfold spGo
      split
      · next hws =>
        rcases ihD with ⟨d, rest, hd, hcs, hg⟩
        refine ⟨c :: d, rest, ?_, by rw [hcs]; rfl, hg⟩
        intro x hx
        rcases List.mem_cons.mp hx with rfl | hx
        · exact hws
        · exact hd x hx
      · refine ⟨[], c :: cs, by simp, rfl, ?_⟩
        simpa using ihA [c]

theorem glued_splitRaw (cs : List Char) : Glued (splitRaw cs) cs := by
  have := (glue_both cs).1 []
  simpa [splitRaw] using this

theorem glued_sum_le : ∀ {ps : List (List Char)} {cs : List Char}, Glued ps cs →
    ((ps.map List.length).sum ≤ cs.length) := by
  intro ps cs h
  induction h with
  | single p => simp
  | cons p c d rest ps _ _ _ ih =>
    simp only [List.map_cons, List.sum_cons, List.length_append, List.length_cons]
    omega

theorem sum_len_filter (p : List Char → Bool) :
    ∀ l : List (List Char),
      (((l.filter p).map List.length).sum ≤ ((l.map List.length)).sum) := by
  intro l
  induction l with
  | nil => simp
  | cons s l ih =>
    by_cases hp : p s
    · simp only [List.filter_cons, hp, if_pos, List.map_cons, List.sum_cons]
      omega
    · simp only [List.filter_cons, hp, Bool.false_eq_true, if_neg, not_false_iff,
        List.map_cons, List.sum_cons]
      omega

theorem strip_len_le (s : List Char) : (pyStrip s).length ≤ s.length := by
  unfold pyStrip
  calc ((s.dropWhile isPySpace).reverse.dropWhile isPySpace).reverse.length
      = ((s.dropWhile isPySpace).reverse.dropWhile isPySpace).length := by
        rw [List.length_reverse]
    _ ≤ (s.dropWhile isPySpace).reverse.length := (List.dropWhile_sublist _).length_le
    _ = (s.dropWhile isPySpace).length := by rw [List.length_reverse]
    _ ≤ s.length := (List.dropWhile_sublist _).length_le

theorem sum_map_strip_le (ps : List (List Char)) :
    (((ps.map pyStrip).map List.length).sum ≤ (ps.map List.length).sum) := by
  rw [List.map_map]
  exact List.sum_le_sum (fun p _ => strip_len_le p)

theorem mul_len_le_sum : ∀ l : List (List Char),
    (∀ s ∈ l, 21 ≤ s.length) → 21 * l.length ≤ (l.map List.length).sum := by
  intro l
  induction l with
  | nil => simp
  | cons s l ih =>
    intro hb
    have h1 := hb s (List.mem_cons_self ..)
    have h2 := ih (fun x hx => hb x (List.mem_cons_of_mem _ hx))
    simp only [List.map_cons, List.sum_cons, List.length_cons]
    omega

theorem clean_len_of_many_sentences (cs : List Char)
    (h : 4 ≤ (splitSentences cs).length) : 50 ≤ cs.length := by
  have hG := glued_splitRaw cs
  have h1 := glued_sum_le hG
  have h2 := sum_map_strip_le (splitRaw cs)
  have h3 := sum_len_filter (fun s => 20 < s.length) ((splitRaw cs).map pyStrip)
  have h4 : 21 * (splitSentences cs).length ≤ ((splitSentences cs).map List.length).sum := by
    apply mul_len_le_sum
    intro s hs
    have := splitSentences_mem_len cs s hs
    omega
  unfold splitSentences at h3 h4 h
  omega

theorem insertDesc_perm (x : Nat × List Char × ℚ) :
    ∀ l : List (Nat × List Char × ℚ), (insertDesc x l).Perm (x :: l) := by
  intro l
  induction l with
  | nil => exact List.Perm.refl _
  | cons y ys ih =>
    unfold insertDesc
    split
    · exact List.Perm.refl _
    · exact (ih.cons y).trans (List.Perm.swap x y ys)

theorem sortDesc_perm : ∀ l : List (Nat × List Char × ℚ), (sortDesc l).Perm l := by
  intro l
  induction l with
  | nil => exact List.Perm.refl _
  | cons x xs ih => exact (insertDesc_perm x (sortDesc xs)).trans (ih.cons x)

theorem insertAsc_perm (x : Nat × List Char × ℚ) :
    ∀ l : List (Nat × List Char × ℚ), (insertAsc x l).Perm (x :: l) := by
  intro l
  induction l with
  | nil => exact List.Perm.refl _
  | cons y ys ih =>
    unfold insertAsc
    split
    · exact List.Perm.refl _
    · exact (ih.cons y).trans (List.Perm.swap x y ys)

theorem sortAsc_perm : ∀ l : List (Nat × List Char × ℚ), (sortAsc l).Perm l := by
  intro l
  induction l with
  | nil => exact List.Perm.refl _
  | cons x xs ih => exact (insertAsc_perm x (sortAsc xs)).trans (ih.cons x)

theorem insertDesc_pairwise (x : Nat × List Char × ℚ) :
    ∀ m : List (Nat × List Char × ℚ), List.Pairwise selRel m →
      (∀ y ∈ m, x.1 < y.1) → List.Pairwise selRel (insertDesc x m) := by
  intro m
  induction m with
  | nil => intro _ _; simp [insertDesc]
  | cons y ys ih =>
    intro hp hidx
    unfold insertDesc
    split
    · next hle =>
      refine List.Pairwise.cons ?_ hp
      intro z hz
      rcases List.mem_cons.mp hz with rfl | hz
      · rcases lt_or_eq_of_le hle with hlt | heq
        · exact Or.inl hlt
        · exact Or.inr ⟨heq, hidx _ (List.mem_cons_self ..)⟩
      · have hyz := (List.pairwise_cons.mp hp).1 z hz
        have hzy : scOf z ≤ scOf y := by
          rcases hyz with hlt | ⟨heq, _⟩
          · exact le_of_lt hlt
          · exact le_of_eq heq
        rcases lt_or_eq_of_le (le_trans hzy hle) with hlt | heq
        · exact Or.inl hlt
        · exact Or.inr ⟨heq, hidx _ (List.mem_cons_of_mem _ hz)⟩
    · next hgt =>
      have hxy : scOf x < scOf y := lt_of_not_le hgt
      rcases List.pairwise_cons.mp hp with ⟨hy, hys⟩
      refine List.Pairwise.cons ?_ (ih hys (fun z hz => hidx _ (List.mem_cons_of_mem _ hz)))
      intro z hz
      have hz2 : z = x ∨ z ∈ ys := by
        have := (insertDesc_perm x ys).mem_iff.mp hz
        simpa using this
      rcases hz2 with rfl | hz2
      · exact Or.inl hxy
      · exact hy z hz2

theorem sortDesc_pairwise : ∀ l : List (Nat × List Char × ℚ),
    List.Pairwise (fun a b => a.1 < b.1) l → List.Pairwise selRel (sortDesc l) := by
  intro l
  induction l with
  | nil => intro _; exact List.Pairwise.nil
  | cons x xs ih =>
    intro hp
    rcases List.pairwise_cons.mp hp with ⟨hx, hxs⟩
    exact insertDesc_pairwise x _ (ih hxs) (fun y hy => hx y ((sortDesc_perm xs).mem_iff.mp hy))

theorem insertAsc_pairwise (x : Nat × List Char × ℚ) :
    ∀ m : List (Nat × List Char × ℚ),
      List.Pairwise (fun a b : Nat × List Char × ℚ => a.1 ≤ b.1) m →
      List.Pairwise (fun a b : Nat × List Char × ℚ => a.1 ≤ b.1) (insertAsc x m) := by
  intro m
  induction m with
  | nil => intro _; simp [insertAsc]
  | cons y ys ih =>
    intro hp
    rcases List.pairwise_cons.mp hp with ⟨hy, hys⟩
    unfold insertAsc
    split
    · next hle =>
      refine List.Pairwise.cons ?_ hp
      intro z hz
      rcases List.mem_cons.mp hz with rfl | hz
      · exact hle
      · exact le_trans hle (hy z hz)
    · next hgt =>
      refine List.Pairwise.cons ?_ (ih hys)
      intro z hz
      have hz2 : z = x ∨ z ∈ ys := by
        have := (insertAsc_perm x ys).mem_iff.mp hz
        simpa using this
      rcases hz2 with rfl | hz2
      · exact le_of_lt (lt_of_not_le hgt)
      · exact hy z hz2

theorem sortAsc_pairwise : ∀ l : List (Nat × List Char × ℚ),
    List.Pairwise (fun a b : Nat × List Char × ℚ => a.1 ≤ b.1) (sortAsc l) := by
  intro l
  induction l with
  | nil => exact List.Pairwise.nil
  | cons x xs ih => exact insertAsc_pairwise x _ ih

theorem scoreListW_idx_ge (stop : List (List Char)) (freq : List Char → Nat) (total : Nat) :
    ∀ (ss : List (List Char)) (i : Nat) (t : Nat × List Char × ℚ),
      t ∈ scoreListW stop freq total i ss → i ≤ t.1 := by
  intro ss
  induction ss with
  | nil => intro i t h; simp [scoreListW] at h
  | cons s ss ih =>
    intro i t h
    unfold scoreListW at h
    rcases List.mem_cons.mp h with rfl | h
    · exact le_refl _
    · exact le_trans (by omega) (ih (i + 1) t h)

theorem scoreListW_pairwise (stop : List (List Char)) (freq : List Char → Nat) (total : Nat) :
    ∀ (ss : List (List Char)) (i : Nat),
      List.Pairwise (fun a b : Nat × List Char × ℚ => a.1 < b.1)
        (scoreListW stop freq total i ss) := by
  intro ss
  induction ss with
  | nil => intro i; exact List.Pairwise.nil
  | cons s ss ih =>
    intro i
    unfold scoreListW
    refine List.Pairwise.cons ?_ (ih (i + 1))
    intro t ht
    have := scoreListW_idx_ge stop freq total ss (i + 1) t ht
    omega

theorem pairwise_take_drop {R : (Nat × List Char × ℚ) → (Nat × List Char × ℚ) → Prop}
    {l : List (Nat × List Char × ℚ)} (h : List.Pairwise R l) (k : Nat) :
    ∀ a ∈ l.take k, ∀ b ∈ l.drop k, R a b := by
  have h2 := h
  rw [← List.take_append_drop k l] at h2
  exact (List.pairwise_append.mp h2).2.2

/-- C3: when more than max_sentences sentences survive (and the scoring
stage is reached), the output of summarize is the join of the selected
triples; exactly max_sentences are selected; the selected sentences
appear in non-decreasing original-index order; and every selected triple
beats every unselected one: a strictly higher score, or an equal score
and a smaller original index (stable tie-break, earlier sentence wins). -/
theorem selection_top_ordered (maxS : Nat) (text : List Char)
    (hm : 3 ≤ maxS) (h : maxS < (splitSentences (cleanText text)).length) :
    summarizeW STOP_WORDS maxS text =
      joinSp ((selW STOP_WORDS maxS text).map (fun t => t.2.1)) ∧
    (selW STOP_WORDS maxS text).length = maxS ∧
    List.Pairwise (fun a b : Nat × List Char × ℚ => a.1 ≤ b.1) (selW STOP_WORDS maxS text) ∧
    (∀ a ∈ selW STOP_WORDS maxS text, ∀ b ∈ scoredW STOP_WORDS text,
      b ∉ selW STOP_WORDS maxS text →
        scOf b < scOf a ∨ (scOf b = scOf a ∧ a.1 < b.1)) := by
  have h50 : 50 ≤ (cleanText text).length :=
    clean_len_of_many_sentences (cleanText text) (by omega)
  have hne : splitSentences (cleanText text) ≠ [] := by
    intro hnil
    rw [hnil] at h
    simp at h
  refine ⟨?_, ?_, sortAsc_pairwise _, ?_⟩
  · unfold summarizeW
    rw [if_neg (clean_long_strip_ne text h50), if_neg (by omega), if_neg hne,
      if_neg (by omega)]
  · unfold selW scoredW
    rw [sortAsc_length, List.length_take, sortDesc_length, scoreListW_length]
    omega
  · intro a ha b hb hbn
    have hsorted : List.Pairwise selRel (sortDesc (scoredW STOP_WORDS text)) :=
      sortDesc_pairwise _ (scoreListW_pairwise _ _ _ _ _)
    have hmem_a : a ∈ List.take maxS (sortDesc (scoredW STOP_WORDS text)) :=
      (sortAsc_perm _).mem_iff.mp ha
    have hb2 : b ∈ sortDesc (scoredW STOP_WORDS text) := (sortDesc_perm _).mem_iff.mpr hb
    rw [← List.take_append_drop maxS (sortDesc (scoredW STOP_WORDS text))] at hb2
    rcases List.mem_append.mp hb2 with hbt | hbd
    · exact absurd ((sortAsc_perm _).mem_iff.mpr hbt) hbn
    · exact pairwise_take_drop hsorted maxS a hmem_a b hbd

/-- Witness for C3 at a concrete five-sentence input with the default
max_sentences of 3. -/
theorem selection_top_ordered_witness :
    3 ≤ 3 ∧
    3 < (splitSentences (cleanText "Alpha budget review happened today quickly. Beta testing starts tomorrow morning early. Gamma release planned next week sometime. Delta retrospective scheduled later month maybe. Epsilon planning continues through quarter end.".data)).length ∧
    (summarizeW STOP_WORDS 3 "Alpha budget review happened today quickly. Beta testing starts tomorrow morning early. Gamma release planned next week sometime. Delta retrospective scheduled later month maybe. Epsilon planning continues through quarter end.".data =
      joinSp ((selW STOP_WORDS 3 "Alpha budget review happened today quickly. Beta testing starts tomorrow morning early. Gamma release planned next week sometime. Delta retrospective scheduled later month maybe. Epsilon planning continues through quarter end.".data).map (fun t => t.2.1)) ∧
     (selW STOP_WORDS 3 "Alpha budget review happened today quickly. Beta testing starts tomorrow morning early. Gamma release planned next week sometime. Delta retrospective scheduled later month maybe. Epsilon planning continues through quarter end.".data).length = 3 ∧
     List.Pairwise (fun a b : Nat × List Char × ℚ => a.1 ≤ b.1)
       (selW STOP_WORDS 3 "Alpha budget review happened today quickly. Beta testing starts tomorrow morning early. Gamma release planned next week sometime. Delta retrospective scheduled later month maybe. Epsilon planning continues through quarter end.".data) ∧
     (∀ a ∈ selW STOP_WORDS 3 "Alpha budget review happened today quickly. Beta testing starts tomorrow morning early. Gamma release planned next week sometime. Delta retrospective scheduled later month maybe. Epsilon planning continues through quarter end.".data,
       ∀ b ∈ scoredW STOP_WORDS "Alpha budget review happened today quickly. Beta testing starts tomorrow morning early. Gamma release planned next week sometime. Delta retrospective scheduled later month maybe. Epsilon planning continues through quarter end.".data,
        b ∉ selW STOP_WORDS 3 "Alpha budget review happened today quickly. Beta testing starts tomorrow morning early. Gamma release planned next week sometime. Delta retrospective scheduled later month maybe. Epsilon planning continues through quarter end.".data →
          scOf b < scOf a ∨ (scOf b = scOf a ∧ a.1 < b.1))) :=
  ⟨by decide, by decide,
   selection_top_ordered 3 "Alpha budget review happened today quickly. Beta testing starts tomorrow morning early. Gamma release planned next week sometime. Delta retrospective scheduled later month maybe. Epsilon planning continues through quarter end.".data
     (by decide) (by decide)⟩

theorem isPySpace_true_iff (c : Char) : isPySpace c = true ↔ c.toNat ∈ pySpaceCodes :=
  List.elem_iff

theorem ws_not_letter (c : Char) (h : isPySpace c = true) : isAsciiLetter c = false := by
  rw [isPySpace_true_iff] at h
  simp only [pySpaceCodes, List.mem_cons, List.not_mem_nil, or_false] at h
  simp only [isAsciiLetter, Bool.or_eq_false_iff, Bool.and_eq_false_iff,
    decide_eq_false_iff_not, not_le]
  omega

theorem ws_not_digitUnd (c : Char) (h : isPySpace c = true) : isDigitUnd c = false := by
  rw [isPySpace_true_iff] at h
  simp only [pySpaceCodes, List.mem_cons, List.not_mem_nil, or_false] at h
  simp only [isDigitUnd, Bool.or_eq_false_iff, Bool.and_eq_false_iff,
    decide_eq_false_iff_not, not_le, beq_eq_false_iff_ne, ne_eq]
  omega

theorem tokGo_cons_eq (run : List Char) (b : Bool) (c : Char) (cs : List Char) :
    tokGo run b (c :: cs) =
      if isAsciiLetter c = true then tokGo (c :: run) b cs
      else (if b = false ∧ 3 ≤ run.length ∧ isDigitUnd c = false
            then [run.reverse] else []) ++ tokGo [] (isDigitUnd c) cs := rfl

theorem tokGo_nil_eq (run : List Char) (b : Bool) :
    tokGo run b [] = if b = false ∧ 3 ≤ run.length then [run.reverse] else [] := rfl

theorem tokGo_append_ws (c : Char) (hc : isPySpace c = true) :
    ∀ (X Y run : List Char) (b : Bool),
      tokGo run b (X ++ c :: Y) = tokGo run b (X ++ [c]) ++ tokGo [] false Y := by
  have hl := ws_not_letter c hc
  have hd := ws_not_digitUnd c hc
  intro X
  induction X with
  | nil =>
    intro Y run b
    simp only [List.nil_append]
    rw [tokGo_cons_eq run b c Y, tokGo_cons_eq run b c [], hl, hd]
    simp [tokGo_nil_eq]
  | cons x X ih =>
    intro Y run b
    simp only [List.cons_append]
    rw [tokGo_cons_eq run b x (X ++ c :: Y), tokGo_cons_eq run b x (X ++ [c])]
    by_cases hx : isAsciiLetter x = true
    · rw [if_pos hx, if_pos hx, ih Y (x :: run) b]
    · rw [if_neg hx, if_neg hx, ih Y [] (isDigitUnd x), List.append_assoc]

theorem tokGo_snoc_ws (c : Char) (hc : isPySpace c = true) :
    ∀ (X run : List Char) (b : Bool), tokGo run b (X ++ [c]) = tokGo run b X := by
  have hl := ws_not_letter c hc
  have hd := ws_not_digitUnd c hc
  intro X
  induction X with
  | nil =>
    intro run b
    simp only [List.nil_append]
    rw [tokGo_cons_eq run b c [], hl, hd, tokGo_nil_eq run b]
    simp [tokGo_nil_eq]
  | cons x X ih =>
    intro run b
    simp only [List.cons_append]
    rw [tokGo_cons_eq run b x (X ++ [c]), tokGo_cons_eq run b x X]
    by_cases hx : isAsciiLetter x = true
    · rw [if_pos hx, if_pos hx, ih (x :: run) b]
    · rw [if_neg hx, if_neg hx, ih [] (isDigitUnd x)]

theorem tokGo_ws_prefix : ∀ (D : List Char), (∀ x ∈ D, isPySpace x = true) →
    ∀ Y : List Char, tokGo [] false (D ++ Y) = tokGo [] false Y := by
  intro D
  induction D with
  | nil => intro _ Y; rfl
  | cons d D ih =>
    intro hws Y
    have hd := hws d (List.mem_cons_self ..)
    simp only [List.cons_append]
    rw [tokGo_cons_eq [] false d (D ++ Y), ws_not_letter d hd, ws_not_digitUnd d hd,
      ih (fun x hx => hws x (List.mem_cons_of_mem _ hx)) Y]
    simp

theorem tokGo_ws_nil (D : List Char) (h : ∀ x ∈ D, isPySpace x = true) :
    tokGo [] false D = [] := by
  have := tokGo_ws_prefix D h []
  simpa using this

theorem tokGo_ws_suffix (X : List Char) : ∀ (d : List Char),
    (∀ x ∈ d, isPySpace x = true) → tokGo [] false (X ++ d) = tokGo [] false X := by
  intro d
  cases d with
  | nil => intro _; rw [List.append_nil]
  | cons c d =>
    intro hws
    have hc := hws c (List.mem_cons_self ..)
    rw [tokGo_append_ws c hc X d [] false, tokGo_snoc_ws c hc X [] false,
      tokGo_ws_nil d (fun x hx => hws x (List.mem_cons_of_mem _ hx)), List.append_nil]

theorem glued_tokens : ∀ {ps : List (List Char)} {cs : List Char}, Glued ps cs →
    ∀ p ∈ ps, ∀ w ∈ tokensOf p, w ∈ tokensOf cs := by
  intro ps cs h
  induction h with
  | single p =>
    intro p2 hp2 w hw
    simp only [List.mem_singleton] at hp2
    subst hp2
    exact hw
  | cons p c d rest ps hc hd hg ih =>
    intro p2 hp2 w hw
    unfold tokensOf
    rw [tokGo_append_ws c hc p (d ++ rest) [] false, tokGo_snoc_ws c hc p [] false,
      tokGo_ws_prefix d hd rest]
    rcases List.mem_cons.mp hp2 with rfl | hp2
    · exact List.mem_append.mpr (Or.inl hw)
    · exact List.mem_append.mpr (Or.inr (ih p2 hp2 w hw))

theorem isPySpace_pyLower (c : Char) : isPySpace (pyLower c) = isPySpace c := by
  by_cases h : 65 ≤ c.toNat ∧ c.toNat ≤ 90
  · have ht : (pyLower c).toNat = c.toNat + 32 := by rw [toNat_pyLower, if_pos h]
    have h1 : isPySpace (pyLower c) = false := by
      rw [Bool.eq_false_iff, Ne, isPySpace_true_iff, ht]
      simp only [pySpaceCodes, List.mem_cons, List.not_mem_nil, or_false, not_or]
      omega
    have h2 : isPySpace c = false := by
      rw [Bool.eq_false_iff, Ne, isPySpace_true_iff]
      simp only [pySpaceCodes, List.mem_cons, List.not_mem_nil, or_false, not_or]
      omega
    rw [h1, h2]
  · have heq : pyLower c = c := by unfold pyLower; rw [dif_neg h]
    rw [heq]

theorem glued_map_lower : ∀ {ps : List (List Char)} {cs : List Char}, Glued ps cs →
    Glued (ps.map (List.map pyLower)) (cs.map pyLower) := by
  intro ps cs h
  induction h with
  | single p => exact Glued.single _
  | cons p c d rest ps hc hd hg ih =>
    have hrw : (p ++ c :: (d ++ rest)).map pyLower =
        p.map pyLower ++ pyLower c :: (d.map pyLower ++ rest.map pyLower) := by
      simp [List.map_append]
    rw [List.map_cons, hrw]
    refine Glued.cons _ _ _ _ _ ?_ ?_ ih
    · rw [isPySpace_pyLower]; exact hc
    · intro x hx
      rcases List.mem_map.mp hx with ⟨x0, hx0, rfl⟩
      rw [isPySpace_pyLower]
      exact hd x0 hx0

theorem strip_decomp (p : List Char) : ∃ d1 d2 : List Char,
    (∀ x ∈ d1, isPySpace x = true) ∧ (∀ x ∈ d2, isPySpace x = true) ∧
    p = d1 ++ pyStrip p ++ d2 := by
  refine ⟨p.takeWhile isPySpace,
    ((p.dropWhile isPySpace).reverse.takeWhile isPySpace).reverse, ?_, ?_, ?_⟩
  · intro x hx
    exact List.mem_takeWhile_imp hx
  · intro x hx
    exact List.mem_takeWhile_imp (List.mem_reverse.mp hx)
  · have hq : p.dropWhile isPySpace =
        pyStrip p ++ ((p.dropWhile isPySpace).reverse.takeWhile isPySpace).reverse := by
      unfold pyStrip
      rw [← List.reverse_append, List.takeWhile_append_dropWhile, List.reverse_reverse]
    conv_lhs => rw [← List.takeWhile_append_dropWhile isPySpace p, hq]
    rw [List.append_assoc]

theorem tokens_strip (p : List Char) :
    tokensOf ((pyStrip p).map pyLower) = tokensOf (p.map pyLower) := by
  obtain ⟨d1, d2, h1, h2, hp⟩ := strip_decomp p
  have hws1 : ∀ x ∈ d1.map pyLower, isPySpace x = true := by
    intro x hx
    rcases List.mem_map.mp hx with ⟨x0, hx0, rfl⟩
    rw [isPySpace_pyLower]
    exact h1 x0 hx0
  have hws2 : ∀ x ∈ d2.map pyLower, isPySpace x = true := by
    intro x hx
    rcases List.mem_map.mp hx with ⟨x0, hx0, rfl⟩
    rw [isPySpace_pyLower]
    exact h2 x0 hx0
  conv_rhs => rw [hp]
  unfold tokensOf
  rw [List.map_append, List.map_append,
    tokGo_ws_suffix (d1.map pyLower ++ (pyStrip p).map pyLower) (d2.map pyLower) hws2,
    tokGo_ws_prefix (d1.map pyLower) hws1 ((pyStrip p).map pyLower)]

theorem sentence_word_in_doc (cs s w : List Char) (hs : s ∈ splitSentences cs)
    (hw : w ∈ qualWordsW STOP_WORDS s) : w ∈ qualWordsW STOP_WORDS cs := by
  unfold splitSentences at hs
  have h1 := (List.mem_filter.mp hs).1
  rcases List.mem_map.mp h1 with ⟨p, hp, rfl⟩
  rcases List.mem_filter.mp hw with ⟨htok, hstop⟩
  rw [tokens_strip] at htok
  have hG : Glued ((splitRaw cs).map (List.map pyLower)) (cs.map pyLower) :=
    glued_map_lower (glued_splitRaw cs)
  have hmem : w ∈ tokensOf (cs.map pyLower) :=
    glued_tokens hG _ (List.mem_map_of_mem _ hp) w htok
  exact List.mem_filter.mpr ⟨hmem, hstop⟩

theorem sum_ge_len (l : List ℚ) (h : ∀ x ∈ l, 1 ≤ x) : (l.length : ℚ) ≤ l.sum := by
  induction l with
  | nil => simp
  | cons x l ih =>
    have h1 := h x (List.mem_cons_self ..)
    have h2 := ih (fun y hy => h y (List.mem_cons_of_mem _ hy))
    simp only [List.length_cons, List.sum_cons]
    push_cast
    linarith

theorem posScore_nonneg (p t : Nat) : 0 ≤ positionScoreOf p t := by
  unfold positionScoreOf
  split_ifs <;> norm_num

theorem lenScore_nonneg (stop : List (List Char)) (s : List Char) :
    0 ≤ lengthScoreOfW stop s := by
  unfold lengthScoreOfW
  split_ifs <;> positivity

/-- C9: every qualifying word of a surviving sentence occurs in the
frequency table built from the same cleaned text with count at least 1,
so the frequency sub-score is at least 1 and the combined score at least
1/2; a scored sentence gets exactly 0 if and only if it has no
qualifying words. -/
theorem sentence_score_bounds (text s : List Char) (pos total : Nat)
    (hs : s ∈ splitSentences (cleanText text)) :
    (qualWordsW STOP_WORDS s ≠ [] →
      (∀ w ∈ qualWordsW STOP_WORDS s, 1 ≤ wordFreqW STOP_WORDS (cleanText text) w) ∧
      1 ≤ freqScoreOfW STOP_WORDS (wordFreqW STOP_WORDS (cleanText text)) s ∧
      1/2 ≤ scoreSentenceW STOP_WORDS (wordFreqW STOP_WORDS (cleanText text)) s pos total) ∧
    (scoreSentenceW STOP_WORDS (wordFreqW STOP_WORDS (cleanText text)) s pos total = 0 ↔
      qualWordsW STOP_WORDS s = []) := by
  have hcount : ∀ w ∈ qualWordsW STOP_WORDS s,
      1 ≤ wordFreqW STOP_WORDS (cleanText text) w := by
    intro w hw
    exact List.count_pos_iff.mpr (sentence_word_in_doc (cleanText text) s w hs hw)
  have hmain : qualWordsW STOP_WORDS s ≠ [] →
      1 ≤ freqScoreOfW STOP_WORDS (wordFreqW STOP_WORDS (cleanText text)) s ∧
      1/2 ≤ scoreSentenceW STOP_WORDS (wordFreqW STOP_WORDS (cleanText text)) s pos total := by
    intro hne
    have hlenpos : 0 < ((qualWordsW STOP_WORDS s).length : ℚ) := by
      have : qualWordsW STOP_WORDS s ≠ [] := hne
      have h0 : 0 < (qualWordsW STOP_WORDS s).length := List.length_pos.mpr this
      exact_mod_cast h0
    have hsum : ((qualWordsW STOP_WORDS s).length : ℚ) ≤
        ((qualWordsW STOP_WORDS s).map
          (fun w => ((wordFreqW STOP_WORDS (cleanText text) w : Nat) : ℚ))).sum := by
      have h1 : ∀ x ∈ (qualWordsW STOP_WORDS s).map
          (fun w => ((wordFreqW STOP_WORDS (cleanText text) w : Nat) : ℚ)), 1 ≤ x := by
        intro x hx
        rcases List.mem_map.mp hx with ⟨w, hw, rfl⟩
        exact_mod_cast hcount w hw
      have h2 := sum_ge_len _ h1
      rwa [List.length_map] at h2
    have hfreq : 1 ≤ freqScoreOfW STOP_WORDS (wordFreqW STOP_WORDS (cleanText text)) s := by
      unfold freqScoreOfW
      rw [le_div_iff₀ hlenpos, one_mul]
      exact hsum
    refine ⟨hfreq, ?_⟩
    unfold scoreSentenceW
    rw [if_neg hne]
    have hp := posScore_nonneg pos total
    have hl := lenScore_nonneg STOP_WORDS s
    nlinarith [hfreq, hp, hl]
  constructor
  · intro hne
    exact ⟨hcount, hmain hne⟩
  · constructor
    · intro h0
      by_contra hne
      have := (hmain hne).2
      rw [h0] at this
      norm_num at this
    · intro hnil
      unfold scoreSentenceW
      rw [if_pos hnil]

/-- Witness for C9 at a concrete one-sentence input. -/
theorem sentence_score_bounds_witness :
    "The quarterly budget meeting has been moved to Friday afternoon in the main room.".data ∈
      splitSentences (cleanText "The quarterly budget meeting has been moved to Friday afternoon in the main room.".data) ∧
    ((qualWordsW STOP_WORDS "The quarterly budget meeting has been moved to Friday afternoon in the main room.".data ≠ [] →
      (∀ w ∈ qualWordsW STOP_WORDS "The quarterly budget meeting has been moved to Friday afternoon in the main room.".data,
        1 ≤ wordFreqW STOP_WORDS (cleanText "The quarterly budget meeting has been moved to Friday afternoon in the main room.".data) w) ∧
      1 ≤ freqScoreOfW STOP_WORDS
        (wordFreqW STOP_WORDS (cleanText "The quarterly budget meeting has been moved to Friday afternoon in the main room.".data))
        "The quarterly budget meeting has been moved to Friday afternoon in the main room.".data ∧
      1/2 ≤ scoreSentenceW STOP_WORDS
        (wordFreqW STOP_WORDS (cleanText "The quarterly budget meeting has been moved to Friday afternoon in the main room.".data))
        "The quarterly budget meeting has been moved to Friday afternoon in the main room.".data 0 1) ∧
    (scoreSentenceW STOP_WORDS
        (wordFreqW STOP_WORDS (cleanText "The quarterly budget meeting has been moved to Friday afternoon in the main room.".data))
        "The quarterly budget meeting has been moved to Friday afternoon in the main room.".data 0 1 = 0 ↔
      qualWordsW STOP_WORDS "The quarterly budget meeting has been moved to Friday afternoon in the main room.".data = [])) :=
  ⟨by decide,
   sentence_score_bounds
     "The quarterly budget meeting has been moved to Friday afternoon in the main room.".data
     "The quarterly budget meeting has been moved to Friday afternoon in the main room.".data
     0 1 (by decide)⟩
